import Mathlib

/-!
Verification of the `autompc` system-identification models against their
natural-language specification.

The development shallowly embeds the two model classes of the repository:

* `src/autompc/sysid/koopman.py` — the `Koopman` class: basis-function
  construction (`__init__`), state lifting (`_apply_basis`,
  `_transform_observations`), least-squares training (`train`, method
  `"lstsq"`), prediction (`pred`, `pred_batch`, `pred_diff`) and the
  parameter dictionary (`get_parameters` / `set_parameters` / `to_linear`).
* `src/autompc/sysid/sindy.py` — the `SINDy` class: the custom function
  library built in `train`, the analytic Jacobian assembly of `pred_diff`,
  and the parameter dictionary.

numpy arrays are embedded as `List (List ℝ)` (row-major, as numpy lays
them out) with explicit transpose / matrix-product operations; scalar
state is passed explicitly.  Python closures over loop variables are
embedded by their call-time semantics (the lambdas are only invoked after
`__init__` returns, when the shared loop variable holds its final value).
-/

namespace AutoMPC

/-! ## List-level linear algebra (embedding of the numpy operations used) -/

/-- Dot product of two lists (`np.dot` on vectors); truncates at the
shorter list exactly as `zipWith` does, matching equal-length use sites. -/
def dotL (u v : List ℝ) : ℝ := (List.zipWith (· * ·) u v).sum

/-- Entrywise sum of two vectors (`numpy +` on equal-shape 1-d arrays). -/
def addV (u v : List ℝ) : List ℝ := List.zipWith (· + ·) u v

/-- Entrywise sum of two matrices (`numpy +` on equal-shape 2-d arrays). -/
def addM (M N : List (List ℝ)) : List (List ℝ) := List.zipWith addV M N

/-- Transpose of a row-major 2-d array (`ndarray.T`); the width is read
off the first row, as for a rectangular numpy array. -/
def transposeL (M : List (List ℝ)) : List (List ℝ) :=
  (List.range (M.headD []).length).map (fun j => M.map (fun r => r.getD j 0))

/-- Matrix product (`np.dot` / `@` on 2-d arrays). -/
def matMul (M N : List (List ℝ)) : List (List ℝ) :=
  M.map (fun row => (transposeL N).map (fun col => dotL row col))

/-- Matrix–vector product (`A @ x` for a 1-d `x`). -/
def matVec (M : List (List ℝ)) (v : List ℝ) : List ℝ :=
  M.map (fun row => dotL row v)

/-- All ordered pairs `(l[i], l[j])` with `i < j`, in the order produced by
the nested loops `for i ...: for j ...: if i < j` of `_apply_basis` and by
`itertools.combinations(·, 2)` (which pysindy's `CustomLibrary` uses). -/
def ordPairs {α : Type} : List α → List (α × α)
  | [] => []
  | x :: xs => xs.map (fun y => (x, y)) ++ ordPairs xs

/-! ## Koopman: symbolic basis functions

`Koopman.__init__` (koopman.py lines 101–106) stores a list of Python
lambdas.  We embed the list symbolically: a `BasisFn` names one lambda,
and `BasisFn.eval` is the real function the lambda computes when called. -/

inductive BasisFn where
  | ident : BasisFn
  | powD : ℕ → BasisFn
  | sinF : ℕ → BasisFn
  | cosF : ℕ → BasisFn
  deriving DecidableEq, Repr

/-- The function a basis lambda computes on a scalar when it is called. -/
noncomputable def BasisFn.eval : BasisFn → ℝ → ℝ
  | .ident, x => x
  | .powD d, x => x ^ d
  | .sinF f, x => Real.sin (f * x)
  | .cosF f, x => Real.cos (f * x)

/-- The fields of a `Koopman` model object.  `A` and `B` are the matrices
stored by `train`; a "trained" model is any value of this structure.
`product_terms` is the boolean `__init__` stores when the constructor
argument is the string form (the factory path); booleans are stored as-is. -/
structure KoopmanModel where
  method : String
  poly_basis : Bool
  poly_degree : ℕ
  trig_basis : Bool
  trig_freq : ℕ
  product_terms : Bool
  A : List (List ℝ)
  B : List (List ℝ)

/-- `self.basis_funcs` as built by `Koopman.__init__` (koopman.py 101–106).

Call-time semantics of the Python closures:
* line 103 `[lambda x: x**i for i in range(2, 1+self.poly_degree)]` — all
  lambdas close over the single comprehension variable `i`, which holds its
  final value `poly_degree` by the time any basis function is called, so
  each of the `poly_degree - 1` lambdas computes `x ** poly_degree`;
* lines 105–106 `for i in range(1, 1+self.poly_degree): ... sin(i*x), cos(i*x)`
  — the loop bound is `poly_degree` (not `trig_freq`), and again every
  lambda sees the final value `i = poly_degree` when called. -/
def Koopman.basis_funcs (m : KoopmanModel) : List BasisFn :=
  [BasisFn.ident]
    ++ (if m.poly_basis then
          (List.range' 2 (m.poly_degree - 1)).map (fun _ => BasisFn.powD m.poly_degree)
        else [])
    ++ (if m.trig_basis then
          (List.range' 1 m.poly_degree).flatMap
            (fun _ => [BasisFn.sinF m.poly_degree, BasisFn.cosF m.poly_degree])
        else [])

/-- `Koopman._apply_basis` (koopman.py 108–118):
`tr_state = [b(x) for b in self.basis_funcs for x in state]`, then, when
`product_terms` is on, the products `x*y` over index pairs `i < j` of
`tr_state` are appended. -/
noncomputable def Koopman.apply_basis (m : KoopmanModel) (state : List ℝ) : List ℝ :=
  let tr_state := (Koopman.basis_funcs m).flatMap (fun b => state.map b.eval)
  tr_state ++ (if m.product_terms then (ordPairs tr_state).map (fun p => p.1 * p.2) else [])

/-- `Koopman._transform_observations` (koopman.py 120–121): row-wise
application of `_apply_basis` (`np.apply_along_axis(·, 1, observations)`). -/
noncomputable def Koopman.transform_observations (m : KoopmanModel)
    (observations : List (List ℝ)) : List (List ℝ) :=
  observations.map (Koopman.apply_basis m)

/-- `Koopman.update_state` (koopman.py 129–130). -/
noncomputable def Koopman.update_state (m : KoopmanModel)
    (_state : List ℝ) (_new_ctrl : List ℝ) (new_obs : List ℝ) : List ℝ :=
  Koopman.apply_basis m new_obs

/-- A trajectory: a matrix of observations (one row per time step) and a
matrix of controls (one row per time step). -/
structure Traj where
  obs : List (List ℝ)
  ctrls : List (List ℝ)

/-- `Koopman.train` with `method == "lstsq"` (koopman.py 136–149, 164).
`pinv` abstracts `scipy.linalg.pinv`; the function returns the pair
`(A, B)` the method stores into `self.A, self.B`.

Source correspondence:
* `trans_obs = [self._transform_observations(traj.obs[:]) for traj in trajs]`
* `X = np.concatenate([obs[:-1,:] for obs in trans_obs]).T`
* `Y = np.concatenate([obs[1:,:] for obs in trans_obs]).T`
* `U = np.concatenate([traj.ctrls[:-1,:] for traj in trajs]).T`
* `n = X.shape[0]`, `XU = np.concatenate((X, U), axis=0)`
* `AB = np.dot(Y, sla.pinv(XU))`, `A = AB[:n, :n]`, `B = AB[:n, n:]`. -/
noncomputable def Koopman.train_lstsq (m : KoopmanModel)
    (pinv : List (List ℝ) → List (List ℝ)) (trajs : List Traj) :
    List (List ℝ) × List (List ℝ) :=
  let trans_obs := trajs.map (fun traj => Koopman.transform_observations m traj.obs)
  let X := transposeL (trans_obs.map (fun obs => obs.dropLast)).flatten
  let Y := transposeL (trans_obs.map (fun obs => obs.drop 1)).flatten
  let U := transposeL (trajs.map (fun traj => traj.ctrls.dropLast)).flatten
  let n := X.length
  let XU := X ++ U
  let AB := matMul Y (pinv XU)
  ((AB.take n).map (fun row => row.take n), (AB.take n).map (fun row => row.drop n))

/-- `Koopman.pred` (koopman.py 166–168): `self.A @ state + self.B @ ctrl`. -/
def Koopman.pred (m : KoopmanModel) (state ctrl : List ℝ) : List ℝ :=
  addV (matVec m.A state) (matVec m.B ctrl)

/-- `Koopman.pred_batch` (koopman.py 170–173):
`(self.A @ states.T + self.B @ ctrls.T).T`. -/
def Koopman.pred_batch (m : KoopmanModel) (states ctrls : List (List ℝ)) :
    List (List ℝ) :=
  transposeL (addM (matMul m.A (transposeL states)) (matMul m.B (transposeL ctrls)))

/-- `Koopman.pred_diff` (koopman.py 175–178): returns the prediction and
(value-level) copies of `A` and `B`. -/
def Koopman.pred_diff (m : KoopmanModel) (state ctrl : List ℝ) :
    List ℝ × List (List ℝ) × List (List ℝ) :=
  (Koopman.pred m state ctrl, m.A, m.B)

/-- `Koopman.get_parameters` (koopman.py 183–185), value level. -/
def Koopman.get_parameters (m : KoopmanModel) : List (List ℝ) × List (List ℝ) :=
  (m.A, m.B)

/-- `Koopman.set_parameters` (koopman.py 187–189), value level. -/
def Koopman.set_parameters (m : KoopmanModel)
    (params : List (List ℝ) × List (List ℝ)) : KoopmanModel :=
  { m with A := params.1, B := params.2 }

/-! ## A heap model of numpy array references

To state aliasing facts (`np.copy` returns a fresh array; mutating it does
not touch the model's stored matrices) we model the numpy heap explicitly:
a store of matrix values, and references as indices into it.  A `Koopman`
object holds references to its `A` and `B` arrays. -/

abbrev Store := List (List (List ℝ))

/-- The `A`/`B` attributes of a `Koopman` object, as heap references. -/
structure KoopmanRefs where
  Aref : ℕ
  Bref : ℕ

/-- Dereference (reading an array through a reference). -/
def readRef (s : Store) (r : ℕ) : List (List ℝ) := s.getD r []

/-- In-place mutation of the array a reference points to. -/
def writeRef (s : Store) (r : ℕ) (v : List (List ℝ)) : Store := s.set r v

/-- Allocation of a fresh array. -/
def alloc (s : Store) (v : List (List ℝ)) : Store × ℕ := (s ++ [v], s.length)

/-- `np.copy`: allocates a fresh array holding the same values. -/
def npCopy (s : Store) (r : ℕ) : Store × ℕ := alloc s (readRef s r)

/-- `Koopman.pred` reading `self.A` / `self.B` through the heap. -/
def Koopman.predH (s : Store) (m : KoopmanRefs) (state ctrl : List ℝ) : List ℝ :=
  addV (matVec (readRef s m.Aref) state) (matVec (readRef s m.Bref) ctrl)

/-- `Koopman.to_linear` (koopman.py 180–181) at heap level:
`return np.copy(self.A), np.copy(self.B)`. -/
def Koopman.to_linearH (s : Store) (m : KoopmanRefs) : Store × (ℕ × ℕ) :=
  let sa := npCopy s m.Aref
  let sb := npCopy sa.1 m.Bref
  (sb.1, (sa.2, sb.2))

/-- `Koopman.get_parameters` (koopman.py 183–185) at heap level: the
dictionary holds `np.copy(self.A)` and `np.copy(self.B)`. -/
def Koopman.get_parametersH (s : Store) (m : KoopmanRefs) : Store × (ℕ × ℕ) :=
  let sa := npCopy s m.Aref
  let sb := npCopy sa.1 m.Bref
  (sb.1, (sa.2, sb.2))

/-- `Koopman.pred_diff` (koopman.py 175–178) at heap level: the prediction
value plus `np.copy(self.A)`, `np.copy(self.B)`. -/
def Koopman.pred_diffH (s : Store) (m : KoopmanRefs) (state ctrl : List ℝ) :
    Store × (List ℝ × ℕ × ℕ) :=
  let xpred := Koopman.predH s m state ctrl
  let sa := npCopy s m.Aref
  let sb := npCopy sa.1 m.Bref
  (sb.1, (xpred, sa.2, sb.2))

/-! ## SINDy: symbolic library functions

`SINDy.train` (sindy.py 85–144) builds three parallel lists of lambdas:
`library_functions`, `function_gradients` (their scalar derivatives) and
`function_names`, plus the two-argument `library_functions` /
`function_gradients2` interaction terms.  The lists are built in lockstep,
so we embed them as one symbolic list each for the one-argument and
two-argument families, with `eval` the library lambda and `grad` the
corresponding stored gradient lambda.  (Here the Python closures bind the
loop variable correctly, via `(lambda f: ...)(freq)` / `(lambda d: ...)(deg)`.) -/

inductive LibFn1 where
  | ident : LibFn1
  | sinF : ℕ → LibFn1
  | cosF : ℕ → LibFn1
  | powD : ℕ → LibFn1
  deriving DecidableEq, Repr

/-- The library lambda (sindy.py 85–87, 98–101, 112–114). -/
noncomputable def LibFn1.eval : LibFn1 → ℝ → ℝ
  | .ident, x => x
  | .sinF f, x => Real.sin (f * x)
  | .cosF f, x => Real.cos (f * x)
  | .powD d, x => x ^ d

/-- The stored gradient lambda (sindy.py 88–90, 102–105, 115–117). -/
noncomputable def LibFn1.grad : LibFn1 → ℝ → ℝ
  | .ident, _ => 1
  | .sinF f, x => f * Real.cos (f * x)
  | .cosF f, x => f * -Real.sin (f * x)
  | .powD d, x => d * x ^ (d - 1)

inductive LibFn2 where
  | xsiny : LibFn2
  | xcosy : LibFn2
  | ysinx : LibFn2
  | ycosx : LibFn2
  deriving DecidableEq, Repr

/-- The two-argument interaction lambdas (sindy.py 122–127). -/
noncomputable def LibFn2.eval : LibFn2 → ℝ → ℝ → ℝ
  | .xsiny, x, y => x * Real.sin y
  | .xcosy, x, y => x * Real.cos y
  | .ysinx, x, y => y * Real.sin x
  | .ycosx, x, y => y * Real.cos x

/-- The stored pair of gradient lambdas (sindy.py 128–133). -/
noncomputable def LibFn2.grad : LibFn2 → ℝ → ℝ → ℝ × ℝ
  | .xsiny, x, y => (Real.sin y, x * Real.cos y)
  | .xcosy, x, y => (Real.cos y, -x * Real.sin y)
  | .ysinx, x, y => (y * Real.cos x, Real.sin x)
  | .ycosx, x, y => (-y * Real.sin x, Real.cos x)

/-- The one-argument library list built by `SINDy.train` (sindy.py 85–120):
identity, then `sin(f·x), cos(f·x)` for `f = 1..trig_freq` when
`trig_basis`, then `x^d` for `d = 2..poly_degree` when `poly_basis`. -/
def SINDy.library_functions (trig_basis : Bool) (trig_freq : ℕ)
    (poly_basis : Bool) (poly_degree : ℕ) : List LibFn1 :=
  [LibFn1.ident]
    ++ (if trig_basis then
          (List.range' 1 trig_freq).flatMap (fun f => [LibFn1.sinF f, LibFn1.cosF f])
        else [])
    ++ (if poly_basis then (List.range' 2 (poly_degree - 1)).map LibFn1.powD else [])

/-- The two-argument interaction list (sindy.py 121–133);
`self.trig_interaction` is unconditionally `True` (sindy.py 69). -/
def SINDy.library_functions2 : List LibFn2 :=
  [LibFn2.xsiny, LibFn2.xcosy, LibFn2.ysinx, LibFn2.ycosx]

/-- Column values of the fitted pysindy feature matrix for one sample, in
coefficient order.  Modelled from the spec's description of the external
`pysindy` dependency (`ps.CustomLibrary` applied through
`ps.SINDy(..., discrete_time=True)`), which is not part of this
repository: for each library function in list order (the one-argument
functions all precede the two-argument interaction functions, as `train`
builds the list), one column per input feature — state coordinates first,
then controls — respectively per ordered pair of distinct input features
in `itertools.combinations` order. -/
noncomputable def SINDy.theta (fs1 : List LibFn1) (gs : List LibFn2)
    (vars : List ℝ) : List ℝ :=
  fs1.flatMap (fun f => vars.map f.eval)
    ++ gs.flatMap (fun g => (ordPairs vars).map (fun p => g.eval p.1 p.2))

/-- Dot product of a coefficient row (indexed by column number) with a
list of feature values. -/
def dotF : (ℕ → ℝ) → List ℝ → ℝ
  | _, [] => 0
  | c, x :: xs => c 0 * x + dotF (fun t => c (t + 1)) xs

/-- `self.model.predict` for one sample and output coordinate `i`:
the coefficient row `i` dotted with the library features of
`(state, ctrl)`.  Modelled from the spec (external pysindy
`SINDy.predict` with `coefficients()` of shape targets × features). -/
noncomputable def SINDy.predict (coeff : ℕ → ℕ → ℝ) (fs1 : List LibFn1)
    (gs : List LibFn2) (state ctrl : List ℝ) (i : ℕ) : ℝ :=
  dotF (coeff i) (SINDy.theta fs1 gs (state ++ ctrl))

/-- `SINDy.pred` (sindy.py 152–155) for output coordinate `i`. -/
noncomputable def SINDy.pred (coeff : ℕ → ℕ → ℝ) (fs1 : List LibFn1)
    (gs : List LibFn2) (state ctrl : List ℝ) (i : ℕ) : ℝ :=
  SINDy.predict coeff fs1 gs state ctrl i

/-- Contribution of the `for gr in self.function_gradients` loop
(sindy.py 169–175) to the Jacobian entry of output `i` and input
variable `j` (state coordinates are variables `0..n-1`, controls
`n..n+m-1`, matching the `coeff_idx` walk): each one-argument gradient
block spans `nv` columns, and within a block only column `j` touches
entry `j`, adding `coeff[i, base+j] * gr(vars[j])`.  `c` is the
coefficient row already shifted to the block base, `xj = vars[j]`. -/
noncomputable def sjac1 (c : ℕ → ℝ) (fs : List LibFn1) (nv : ℕ) (xj : ℝ) (j : ℕ) : ℝ :=
  match fs with
  | [] => 0
  | f :: fs' => c j * f.grad xj + sjac1 (fun t => c (t + nv)) fs' nv xj j

/-- Contribution of one `gr in self.function_gradients2` block
(sindy.py 176–196) to the Jacobian entry of input variable `j`: the
pairs `(p, q)`, `p < q`, are walked in `coeff_idx` order; a pair adds
`coeff * gr(vars[p], vars[q]).1` to entry `p` and `... .2` to entry `q`.
`prs` carries each pair together with its variable indices. -/
noncomputable def sjac2blk (c : ℕ → ℝ) (g : LibFn2) (prs : List ((ℕ × ℝ) × (ℕ × ℝ)))
    (j : ℕ) : ℝ :=
  match prs with
  | [] => 0
  | pq :: rest =>
      (if pq.1.1 = j then c 0 * (g.grad pq.1.2 pq.2.2).1 else 0)
        + ((if pq.2.1 = j then c 0 * (g.grad pq.1.2 pq.2.2).2 else 0)
            + sjac2blk (fun t => c (t + 1)) g rest j)

/-- All `function_gradients2` blocks (sindy.py 176–196), each spanning
`prs.length` columns. -/
noncomputable def sjac2 (c : ℕ → ℝ) (gs : List LibFn2) (prs : List ((ℕ × ℝ) × (ℕ × ℝ)))
    (j : ℕ) : ℝ :=
  match gs with
  | [] => 0
  | g :: gs' => sjac2blk c g prs j + sjac2 (fun t => c (t + prs.length)) gs' prs j

/-- The accumulated Jacobian entry of `SINDy.pred_diff` (sindy.py 164–196)
for output `i` and input variable `j` over the concatenated variable
vector `state ++ ctrl`: the `function_gradients` blocks (each `nv`
columns wide) followed by the `function_gradients2` blocks starting at
column `fs1.length * nv`. -/
noncomputable def SINDy.var_jac (coeff : ℕ → ℕ → ℝ) (fs1 : List LibFn1)
    (gs : List LibFn2) (state ctrl : List ℝ) (i j : ℕ) : ℝ :=
  let vars := state ++ ctrl
  let nv := vars.length
  sjac1 (coeff i) fs1 nv (vars.getD j 0) j
    + sjac2 (fun t => coeff i (t + fs1.length * nv)) gs (ordPairs vars.enum) j

/-- `state_jac[i, j]` as assembled by `SINDy.pred_diff`: the entry of
state variable `j`. -/
noncomputable def SINDy.state_jac (coeff : ℕ → ℕ → ℝ) (fs1 : List LibFn1)
    (gs : List LibFn2) (state ctrl : List ℝ) (i j : ℕ) : ℝ :=
  SINDy.var_jac coeff fs1 gs state ctrl i j

/-- `ctrl_jac[i, j]` as assembled by `SINDy.pred_diff`: the entry of
control variable `j`, i.e. variable `state.length + j`. -/
noncomputable def SINDy.ctrl_jac (coeff : ℕ → ℕ → ℝ) (fs1 : List LibFn1)
    (gs : List LibFn2) (state ctrl : List ℝ) (i j : ℕ) : ℝ :=
  SINDy.var_jac coeff fs1 gs state ctrl i (state.length + j)

/-- `SINDy.pred_diff` (sindy.py 161–198): the prediction (computed exactly
as in `pred`) together with the two Jacobian matrices. -/
noncomputable def SINDy.pred_diff (coeff : ℕ → ℕ → ℝ) (fs1 : List LibFn1)
    (gs : List LibFn2) (state ctrl : List ℝ) :
    (ℕ → ℝ) × (ℕ → ℕ → ℝ) × (ℕ → ℕ → ℝ) :=
  (SINDy.predict coeff fs1 gs state ctrl,
   SINDy.state_jac coeff fs1 gs state ctrl,
   SINDy.ctrl_jac coeff fs1 gs state ctrl)

/-! ## SINDy object attributes (for the parameter-dictionary claim)

Python object attributes exist only once assigned; accessing an
unassigned attribute raises `AttributeError`.  We record the attributes a
`SINDy` instance can hold as `Option`-valued fields: `__init__`
(sindy.py 52–69) assigns the configuration fields, `train`
(sindy.py 143–149) assigns `function_gradients`, `function_gradients2`
and `model` — and nothing in the class ever assigns `self.A` or
`self.B`. -/

structure SINDyModel where
  method : String
  lasso_alpha : Option ℝ
  poly_basis : Bool
  poly_degree : ℕ
  trig_basis : Bool
  trig_freq : ℕ
  trig_interaction : Bool
  model : Option (ℕ → ℕ → ℝ)
  function_gradients : Option (List LibFn1)
  function_gradients2 : Option (List LibFn2)
  A : Option (List (List ℝ))
  B : Option (List (List ℝ))

/-- `SINDy.__init__` (sindy.py 52–69). -/
noncomputable def SINDy.init (method : String) (lasso_alpha_log10 : Option ℝ)
    (poly_basis : Bool) (poly_degree : ℕ) (trig_basis : Bool)
    (trig_freq : ℕ) : SINDyModel :=
  { method := method
    lasso_alpha := lasso_alpha_log10.map (fun l => (10 : ℝ) ^ l)
    poly_basis := poly_basis
    poly_degree := poly_degree
    trig_basis := trig_basis
    trig_freq := trig_freq
    trig_interaction := true
    model := none
    function_gradients := none
    function_gradients2 := none
    A := none
    B := none }

/-- `SINDy.train` (sindy.py 81–149).  The pysindy regression itself is
external, so the fitted coefficient matrix is abstracted as the outcome
`fit` of `sindy_model.fit` on the given trajectories; `train` stores the
gradient lists and the fitted model, and assigns nothing else. -/
noncomputable def SINDy.train (m : SINDyModel) (fit : List Traj → ℕ → ℕ → ℝ)
    (trajs : List Traj) : SINDyModel :=
  { m with
    model := some (fit trajs)
    function_gradients :=
      some (SINDy.library_functions m.trig_basis m.trig_freq m.poly_basis m.poly_degree)
    function_gradients2 := some SINDy.library_functions2 }

/-- `SINDy.get_parameters` (sindy.py 243–245): reads `self.A` and
`self.B`; an unassigned attribute raises (`Except.error`). -/
def SINDy.get_parameters (m : SINDyModel) :
    Except String (List (List ℝ) × List (List ℝ)) :=
  match m.A, m.B with
  | some a, some b => Except.ok (a, b)
  | _, _ => Except.error "AttributeError"

/-! ## Claims about the Koopman basis construction -/

/-- **C1** (refuted; the code has a bug): the claim says a Koopman model
with `poly_basis` and `poly_degree = 3` carries, besides the identity, the
distinct basis functions `x ↦ x²` and `x ↦ x³`.  In the code every
comprehension lambda closes over the shared loop variable, so the basis is
`[x, x³, x³]`: lifting the state `[2]` yields `[2, 8, 8]` (not
`[2, 4, 8]`), and no basis function maps `2` to `2² = 4`. -/
theorem C1_poly_basis_all_collapse_to_top_degree :
    Koopman.apply_basis ⟨"lstsq", true, 3, false, 1, false, [], []⟩ [2]
        = [2, 8, 8]
    ∧ ∀ b ∈ Koopman.basis_funcs ⟨"lstsq", true, 3, false, 1, false, [], []⟩,
        b.eval 2 ≠ (2 : ℝ) ^ 2 := by
  constructor
  · show Koopman.apply_basis _ [2] = _
    simp [Koopman.apply_basis, Koopman.basis_funcs, List.range',
      BasisFn.eval]
    norm_num
  · intro b hb
    have : b = BasisFn.ident ∨ b = BasisFn.powD 3 := by
      simp [Koopman.basis_funcs, List.range'] at hb
      tauto
    rcases this with h | h
    · subst h
      norm_num [BasisFn.eval]
    · subst h
      norm_num [BasisFn.eval]

/-- **C2** (refuted; the code has a bug): the claim says a Koopman model
with `trig_basis` and `trig_freq = f` carries `sin(i·x)`, `cos(i·x)` for
exactly the frequencies `i = 1..f`, independently of `poly_degree`.  The
trig loop actually iterates over `range(1, 1 + poly_degree)` — `trig_freq`
is never read — and every lambda sees the final loop value.  With
`trig_freq = 2`, `poly_degree = 1` no basis function maps `π/2` to
`sin(2 · π/2) = sin π` and `π` to `sin 2π` simultaneously (so `sin(2x)` is
missing); with `trig_freq = 1`, `poly_degree = 3` the basis does contain
the function `x ↦ sin(3x)`, a frequency above `trig_freq`. -/
theorem C2_trig_basis_ignores_trig_freq :
    (∀ b ∈ Koopman.basis_funcs ⟨"lstsq", false, 1, true, 2, false, [], []⟩,
        ¬ (∀ x : ℝ, b.eval x = Real.sin (2 * x)))
    ∧ ∃ b ∈ Koopman.basis_funcs ⟨"lstsq", false, 3, true, 1, false, [], []⟩,
        ∀ x : ℝ, b.eval x = Real.sin (3 * x) := by
  constructor
  · intro b hb hsin
    have hmem : b = BasisFn.ident ∨ b = BasisFn.sinF 1 ∨ b = BasisFn.cosF 1 := by
      simp [Koopman.basis_funcs, List.range'] at hb
      tauto
    rcases hmem with h | h | h <;> subst h
    · have h1 := hsin Real.pi
      rw [show (2 : ℝ) * Real.pi = 2 * Real.pi by ring] at h1
      simp [BasisFn.eval, Real.sin_two_pi] at h1
      exact Real.pi_ne_zero h1
    · have h1 := hsin (Real.pi / 2)
      simp [BasisFn.eval] at h1
      rw [show (2 : ℝ) * (Real.pi / 2) = Real.pi by ring] at h1
      simp [Real.sin_pi, Real.sin_pi_div_two] at h1
    · have h1 := hsin 0
      simp [BasisFn.eval] at h1
  · refine ⟨BasisFn.sinF 3, ?_, ?_⟩
    · simp [Koopman.basis_funcs, List.range']
    · intro x
      norm_num [BasisFn.eval]

/-! ## Claims about the Koopman parameter dictionary and state update -/

/-- **C7** (holds): `set_parameters (get_parameters ())` restores `A` and
`B` exactly, and `pred` afterwards agrees with `pred` before on every
input. -/
theorem C7_koopman_parameter_roundtrip (m : KoopmanModel) :
    (Koopman.set_parameters m (Koopman.get_parameters m)).A = m.A
    ∧ (Koopman.set_parameters m (Koopman.get_parameters m)).B = m.B
    ∧ ∀ state ctrl : List ℝ,
        Koopman.pred (Koopman.set_parameters m (Koopman.get_parameters m)) state ctrl
          = Koopman.pred m state ctrl :=
  ⟨rfl, rfl, fun _ _ => rfl⟩

/-- **C10** (holds): `update_state` depends only on `new_obs`: two calls
with the same `new_obs` and arbitrary `state` / `new_ctrl` agree, and the
common value is the lifted observation `_apply_basis(new_obs)`. -/
theorem C10_update_state_only_reads_new_obs (m : KoopmanModel)
    (state₁ ctrl₁ state₂ ctrl₂ new_obs : List ℝ) :
    Koopman.update_state m state₁ ctrl₁ new_obs
        = Koopman.update_state m state₂ ctrl₂ new_obs
    ∧ Koopman.update_state m state₁ ctrl₁ new_obs
        = Koopman.apply_basis m new_obs :=
  ⟨rfl, rfl⟩

/-! ## Claim about the structure of lstsq training -/

/-- The claim's `X`: "stacking the lifted observations of every trajectory
excluding the last row" (in column-sample form, as fed to the solve). -/
noncomputable def claimX (m : KoopmanModel) (trajs : List Traj) : List (List ℝ) :=
  transposeL (trajs.flatMap (fun t => (t.obs.map (Koopman.apply_basis m)).dropLast))

/-- The claim's `Y`: "stacking the lifted observations excluding the first
row". -/
noncomputable def claimY (m : KoopmanModel) (trajs : List Traj) : List (List ℝ) :=
  transposeL (trajs.flatMap (fun t => (t.obs.map (Koopman.apply_basis m)).drop 1))

/-- The claim's `U`: "stacking the controls excluding the last row". -/
noncomputable def claimU (trajs : List Traj) : List (List ℝ) :=
  transposeL (trajs.flatMap (fun t => t.ctrls.dropLast))

/-- The claim's solve: `[A|B] = Y * pinv([X; U])`. -/
noncomputable def claimAB (m : KoopmanModel)
    (pinv : List (List ℝ) → List (List ℝ)) (trajs : List Traj) : List (List ℝ) :=
  matMul (claimY m trajs) (pinv (claimX m trajs ++ claimU trajs))

/-- **C3** (holds): on a non-empty list of trajectories of length ≥ 2,
`train` with method `"lstsq"` builds exactly the stacks the claim
describes, solves `[A|B] = Y * pinv([X; U])`, and stores the first
`state_dim` (= `X.length`) columns of the first `state_dim` rows as `A`
and the remaining columns as `B`. -/
theorem C3_koopman_train_lstsq_structure (m : KoopmanModel)
    (pinv : List (List ℝ) → List (List ℝ)) (trajs : List Traj)
    (_hne : trajs ≠ []) (_htlen : ∀ t ∈ trajs, 2 ≤ t.obs.length) :
    Koopman.train_lstsq m pinv trajs
      = (((claimAB m pinv trajs).take (claimX m trajs).length).map
            (fun r => r.take (claimX m trajs).length),
         ((claimAB m pinv trajs).take (claimX m trajs).length).map
            (fun r => r.drop (claimX m trajs).length)) := by
  unfold Koopman.train_lstsq Koopman.transform_observations claimAB claimX claimY claimU
  simp only [List.flatMap_def, List.map_map]
  rfl

/-- Concrete instantiation: one trajectory with two observations. -/
theorem C3_koopman_train_lstsq_structure_witness :
    ([⟨[[1], [2]], [[0], [0]]⟩] : List Traj) ≠ []
    ∧ Koopman.train_lstsq ⟨"lstsq", false, 1, false, 1, false, [], []⟩
        (fun _ => [[1]]) [⟨[[1], [2]], [[0], [0]]⟩]
      = (((claimAB ⟨"lstsq", false, 1, false, 1, false, [], []⟩ (fun _ => [[1]])
              [⟨[[1], [2]], [[0], [0]]⟩]).take
            (claimX ⟨"lstsq", false, 1, false, 1, false, [], []⟩
              [⟨[[1], [2]], [[0], [0]]⟩]).length).map
          (fun r => r.take
            (claimX ⟨"lstsq", false, 1, false, 1, false, [], []⟩
              [⟨[[1], [2]], [[0], [0]]⟩]).length),
         ((claimAB ⟨"lstsq", false, 1, false, 1, false, [], []⟩ (fun _ => [[1]])
              [⟨[[1], [2]], [[0], [0]]⟩]).take
            (claimX ⟨"lstsq", false, 1, false, 1, false, [], []⟩
              [⟨[[1], [2]], [[0], [0]]⟩]).length).map
          (fun r => r.drop
            (claimX ⟨"lstsq", false, 1, false, 1, false, [], []⟩
              [⟨[[1], [2]], [[0], [0]]⟩]).length)) :=
  ⟨by simp,
   C3_koopman_train_lstsq_structure _ _ _ (by simp)
    (by intro t ht; simp at ht; subst ht; simp)⟩

/-! ## Claim about the exactness of the Koopman Jacobians -/

theorem dotL_addV (r s ds : List ℝ) (h : ds.length = s.length) :
    dotL r (addV s ds) = dotL r s + dotL r ds := by
  induction r generalizing s ds with
  | nil => simp [dotL]
  | cons a r ih =>
    cases s with
    | nil =>
      have : ds = [] := List.length_eq_zero.mp (by simpa using h)
      subst this; simp [dotL, addV]
    | cons x s' =>
      cases ds with
      | nil => simp at h
      | cons d ds' =>
        have h' : ds'.length = s'.length := by simpa using h
        simp only [dotL, addV, List.zipWith_cons_cons, List.sum_cons] at *
        have := ih s' ds' h'
        simp only [dotL, addV] at this
        rw [this]; ring

theorem zipWith_add_map_split (A B : List (List ℝ)) (f₁ f₂ g₁ g₂ : List ℝ → ℝ) :
    List.zipWith (· + ·) (A.map (fun r => f₁ r + f₂ r)) (B.map (fun r => g₁ r + g₂ r))
      = addV (List.zipWith (· + ·) (A.map f₁) (B.map g₁))
             (List.zipWith (· + ·) (A.map f₂) (B.map g₂)) := by
  induction A generalizing B with
  | nil => simp [addV]
  | cons a A ih =>
    cases B with
    | nil => simp [addV]
    | cons b B =>
      simp only [List.map_cons, List.zipWith_cons_cons, addV] at *
      rw [ih]
      congr 1
      ring

/-- **C5** (holds): `pred_diff` returns the prediction
`A @ state + B @ ctrl` together with `A` and `B` themselves, and these are
the exact Jacobians of `pred`: `pred` is linear, every increment
`(ds, dc)` of matching shape changes the prediction by exactly
`A @ ds + B @ dc`. -/
theorem C5_koopman_pred_diff_exact_jacobians (m : KoopmanModel)
    (state ctrl : List ℝ) :
    Koopman.pred_diff m state ctrl = (Koopman.pred m state ctrl, m.A, m.B)
    ∧ ∀ ds dc : List ℝ, ds.length = state.length → dc.length = ctrl.length →
        Koopman.pred m (addV state ds) (addV ctrl dc)
          = addV (Koopman.pred m state ctrl)
                 (addV (matVec m.A ds) (matVec m.B dc)) := by
  refine ⟨rfl, fun ds dc hds hdc => ?_⟩
  have hA : m.A.map (fun row => dotL row (addV state ds))
      = m.A.map (fun row => dotL row state + dotL row ds) := by
    apply List.map_congr_left
    intro r _
    exact dotL_addV r state ds hds
  have hB : m.B.map (fun row => dotL row (addV ctrl dc))
      = m.B.map (fun row => dotL row ctrl + dotL row dc) := by
    apply List.map_congr_left
    intro r _
    exact dotL_addV r ctrl dc hdc
  show addV (matVec m.A (addV state ds)) (matVec m.B (addV ctrl dc)) = _
  unfold matVec
  rw [hA, hB]
  have := zipWith_add_map_split m.A m.B (fun r => dotL r state) (fun r => dotL r ds)
    (fun r => dotL r ctrl) (fun r => dotL r dc)
  unfold addV at this ⊢
  exact this

/-- Concrete instantiation of the Jacobian-exactness claim: for
`A = [[1, 2]]`, `B = [[3]]`, the increment `([1, 1], [2])` moves the
prediction `[1*2+2*3+3*4] = [20]` by exactly `A @ [1,1] + B @ [2] = [9]`. -/
theorem C5_koopman_pred_diff_exact_jacobians_witness :
    Koopman.pred ⟨"lstsq", false, 1, false, 1, false, [[1, 2]], [[3]]⟩
        (addV [2, 3] [1, 1]) (addV [4] [2])
      = addV (Koopman.pred ⟨"lstsq", false, 1, false, 1, false, [[1, 2]], [[3]]⟩ [2, 3] [4])
             (addV (matVec [[1, 2]] [1, 1]) (matVec [[3]] [2])) :=
  (C5_koopman_pred_diff_exact_jacobians _ [2, 3] [4]).2 [1, 1] [2] rfl rfl

/-! ## Claim that batched prediction refines single prediction -/

theorem headD_eq_getD {α : Type} (l : List α) (d : α) : l.headD d = l.getD 0 d := by
  cases l <;> rfl

theorem zipWith_congr_mem {α β γ : Type} (f g : α → β → γ) (A : List α) (B : List β)
    (h : ∀ x ∈ A, ∀ y ∈ B, f x y = g x y) :
    List.zipWith f A B = List.zipWith g A B := by
  induction A generalizing B with
  | nil => simp
  | cons a A ih =>
    cases B with
    | nil => simp
    | cons b B =>
      simp only [List.zipWith_cons_cons]
      rw [h a (by simp) b (by simp), ih B (fun x hx y hy => h x (by simp [hx]) y (by simp [hy]))]

theorem getD_map_of_lt {α β : Type} (l : List α) (f : α → β) (i : ℕ)
    (h : i < l.length) (d : β) (d' : α) : (l.map f).getD i d = f (l.getD i d') := by
  rw [List.getD_eq_getElem _ _ (by simpa using h), List.getD_eq_getElem _ _ h]
  simp

theorem range_map_getD {α : Type} (l : List α) (d : α) :
    (List.range l.length).map (fun j => l.getD j d) = l := by
  apply List.ext_getElem (by simp)
  intro i h1 h2
  simp [List.getD, List.getElem?_eq_getElem h2]

theorem transposeL_transposeL (S : List (List ℝ)) (n : ℕ) (hn : 0 < n)
    (hrect : ∀ r ∈ S, r.length = n) : transposeL (transposeL S) = S := by
  cases S with
  | nil => simp [transposeL]
  | cons s₀ S' =>
    have hw : ((s₀ :: S').headD []).length = n := hrect s₀ (by simp)
    have hT : transposeL (s₀ :: S')
        = (List.range n).map (fun j => (s₀ :: S').map (fun r => r.getD j 0)) := by
      rw [transposeL, hw]
    have hTw : ((transposeL (s₀ :: S')).headD []).length = (s₀ :: S').length := by
      rw [hT, headD_eq_getD]
      rw [getD_map_of_lt _ _ 0 (by simpa using hn) [] 0]
      simp
    rw [transposeL, hTw, hT]
    apply List.ext_getElem (by simp)
    intro i h1 h2
    simp only [List.getElem_map, List.getElem_range]
    have hrow : ∀ j : ℕ,
        (((s₀ :: S').map (fun r => r.getD j 0)).getD i 0) = ((s₀ :: S')[i]).getD j 0 := by
      intro j
      rw [getD_map_of_lt (s₀ :: S') (fun r => r.getD j 0) i h2 0 []]
      rw [List.getD_eq_getElem _ _ h2]
    have : (List.range n).map
          (fun j => ((s₀ :: S').map (fun r => r.getD j 0)).getD i 0)
        = (List.range n).map (fun j => ((s₀ :: S')[i]).getD j 0) := by
      exact List.map_congr_left (fun j _ => hrow j)
    calc ((List.range n).map (fun j => (s₀ :: S').map (fun r => r.getD j 0))).map
            (fun r => r.getD i 0)
        = (List.range n).map (fun j => ((s₀ :: S').map (fun r => r.getD j 0)).getD i 0) := by
          rw [List.map_map]; rfl
      _ = (List.range n).map (fun j => ((s₀ :: S')[i]).getD j 0) := this
      _ = (s₀ :: S')[i] := by
          have hl : ((s₀ :: S')[i]).length = n := hrect _ (List.getElem_mem h2)
          rw [← hl]
          exact range_map_getD _ 0

/-- **C8** (holds): row `i` of `pred_batch(states, ctrls)` equals
`pred(states[i], ctrls[i])`, for every batch of rectangular state /
control arrays with equal row counts and at least one column each. -/
theorem C8_koopman_pred_batch_refines_pred (m : KoopmanModel)
    (states ctrls : List (List ℝ)) (n mc : ℕ) (hn : 0 < n) (hmc : 0 < mc)
    (hS : ∀ r ∈ states, r.length = n) (hC : ∀ r ∈ ctrls, r.length = mc)
    (hlen : states.length = ctrls.length) (i : ℕ) (hi : i < states.length) :
    (Koopman.pred_batch m states ctrls).getD i []
      = Koopman.pred m (states.getD i []) (ctrls.getD i []) := by
  have hSS : transposeL (transposeL states) = states := transposeL_transposeL states n hn hS
  have hCC : transposeL (transposeL ctrls) = ctrls := transposeL_transposeL ctrls mc hmc hC
  have hmmA : matMul m.A (transposeL states) = m.A.map (fun row => states.map (dotL row)) := by
    unfold matMul
    rw [hSS]
  have hmmB : matMul m.B (transposeL ctrls) = m.B.map (fun row => ctrls.map (dotL row)) := by
    unfold matMul
    rw [hCC]
  unfold Koopman.pred_batch
  rw [hmmA, hmmB]
  unfold addM
  cases hA : m.A with
  | nil =>
    simp [transposeL, Koopman.pred, matVec, hA, addV]
  | cons a A' =>
    cases hB : m.B with
    | nil =>
      simp [transposeL, Koopman.pred, matVec, hA, hB, addV]
    | cons b B' =>
      set W := List.zipWith addV ((a :: A').map (fun row => states.map (dotL row)))
        ((b :: B').map (fun row => ctrls.map (dotL row))) with hW
      have hW0 : W.headD [] = addV (states.map (dotL a)) (ctrls.map (dotL b)) := by
        rw [hW]; rfl
      have hW0len : (W.headD []).length = states.length := by
        rw [hW0]
        simp [addV, hlen]
      -- row i of the final transpose is the i-th entry of every row of W
      unfold transposeL
      rw [hW0len]
      rw [getD_map_of_lt _ _ i (by simpa using hi) [] 0]
      rw [List.getD_eq_getElem _ _ (by simpa using hi), List.getElem_range]
      -- now compute W.map (fun r => r.getD i 0) entrywise
      rw [hW]
      rw [List.zipWith_map (fun u v => addV u v) _ _ (a :: A') (b :: B')]
      rw [List.map_zipWith]
      unfold Koopman.pred matVec
      rw [hA, hB]
      have : ∀ x ∈ (a :: A'), ∀ y ∈ (b :: B'),
          (addV (states.map (dotL x)) (ctrls.map (dotL y))).getD i 0
            = dotL x (states.getD i []) + dotL y (ctrls.getD i []) := by
        intro x _ y _
        have hiS : i < (states.map (dotL x)).length := by simpa using hi
        have hiC : i < (ctrls.map (dotL y)).length := by
          simpa using (hlen ▸ hi)
        unfold addV
        rw [List.getD_eq_getElem _ _ (by simp; constructor <;> [simpa using hiS; simpa using hiC])]
        rw [List.getElem_zipWith]
        rw [← List.getD_eq_getElem _ 0 hiS, ← List.getD_eq_getElem _ 0 hiC]
        rw [getD_map_of_lt _ _ i hi 0 [], getD_map_of_lt _ _ i (hlen ▸ hi) 0 []]
      show _ = addV ((a :: A').map (fun row => dotL row (states.getD i [])))
          ((b :: B').map (fun row => dotL row (ctrls.getD i [])))
      unfold addV
      rw [List.zipWith_map (· + ·) (fun x => dotL x (states.getD i []))
            (fun y => dotL y (ctrls.getD i [])) (a :: A') (b :: B')]
      exact zipWith_congr_mem _ _ _ _ this

/-- Concrete instantiation: identity `A`, ones `B`, a two-row batch; row 0
of the batched prediction is the single prediction on row 0. -/
theorem C8_koopman_pred_batch_refines_pred_witness :
    (Koopman.pred_batch ⟨"lstsq", false, 1, false, 1, false, [[1, 0], [0, 1]], [[1], [1]]⟩
        [[1, 2], [3, 4]] [[5], [6]]).getD 0 []
      = Koopman.pred ⟨"lstsq", false, 1, false, 1, false, [[1, 0], [0, 1]], [[1], [1]]⟩
          (([[1, 2], [3, 4]] : List (List ℝ)).getD 0 [])
          (([[5], [6]] : List (List ℝ)).getD 0 []) :=
  C8_koopman_pred_batch_refines_pred _ _ _ 2 1 (by norm_num) (by norm_num)
    (by
      intro r hr
      rcases List.mem_cons.mp hr with rfl | hr
      · rfl
      rcases List.mem_cons.mp hr with rfl | hr
      · rfl
      cases hr)
    (by
      intro r hr
      rcases List.mem_cons.mp hr with rfl | hr
      · rfl
      rcases List.mem_cons.mp hr with rfl | hr
      · rfl
      cases hr)
    (by simp) 0 (by simp)

/-! ## Claim that returned matrices are fresh copies (no aliasing) -/

theorem copy_frame_core (s : Store) (a b v : List (List ℝ)) (r q : ℕ)
    (hq : q < s.length) (hr : s.length ≤ r) :
    readRef (writeRef ((s ++ [a]) ++ [b]) r v) q = readRef s q := by
  have hne : r ≠ q := by omega
  unfold readRef writeRef
  rw [List.getD_eq_getElem?_getD, List.getElem?_set_ne hne]
  rw [List.getElem?_append_left (by simp; omega)]
  rw [List.getElem?_append_left (by omega)]
  rw [← List.getD_eq_getElem?_getD]

/-- **C9** (holds): the matrices handed out by `to_linear`,
`get_parameters` and `pred_diff` are `np.copy` allocations: writing any
value through either returned reference leaves the model's stored `A` and
`B` unchanged, and `pred` afterwards returns on every input what it
returned before the mutation. -/
theorem C9_returned_matrices_are_copies (s : Store) (m : KoopmanRefs)
    (hA : m.Aref < s.length) (hB : m.Bref < s.length) (v : List (List ℝ))
    (state ctrl : List ℝ) :
    (∀ r ∈ [(Koopman.to_linearH s m).2.1, (Koopman.to_linearH s m).2.2],
        readRef (writeRef (Koopman.to_linearH s m).1 r v) m.Aref = readRef s m.Aref
        ∧ readRef (writeRef (Koopman.to_linearH s m).1 r v) m.Bref = readRef s m.Bref
        ∧ Koopman.predH (writeRef (Koopman.to_linearH s m).1 r v) m state ctrl
            = Koopman.predH s m state ctrl)
    ∧ (∀ r ∈ [(Koopman.get_parametersH s m).2.1, (Koopman.get_parametersH s m).2.2],
        readRef (writeRef (Koopman.get_parametersH s m).1 r v) m.Aref = readRef s m.Aref
        ∧ readRef (writeRef (Koopman.get_parametersH s m).1 r v) m.Bref = readRef s m.Bref
        ∧ Koopman.predH (writeRef (Koopman.get_parametersH s m).1 r v) m state ctrl
            = Koopman.predH s m state ctrl)
    ∧ (∀ r ∈ [(Koopman.pred_diffH s m state ctrl).2.2.1,
              (Koopman.pred_diffH s m state ctrl).2.2.2],
        readRef (writeRef (Koopman.pred_diffH s m state ctrl).1 r v) m.Aref
            = readRef s m.Aref
        ∧ readRef (writeRef (Koopman.pred_diffH s m state ctrl).1 r v) m.Bref
            = readRef s m.Bref
        ∧ Koopman.predH (writeRef (Koopman.pred_diffH s m state ctrl).1 r v) m state ctrl
            = Koopman.predH s m state ctrl) := by
  have core : ∀ r : ℕ, s.length ≤ r →
      readRef (writeRef ((s ++ [readRef s m.Aref])
          ++ [readRef (s ++ [readRef s m.Aref]) m.Bref]) r v) m.Aref
        = readRef s m.Aref
      ∧ readRef (writeRef ((s ++ [readRef s m.Aref])
          ++ [readRef (s ++ [readRef s m.Aref]) m.Bref]) r v) m.Bref
        = readRef s m.Bref
      ∧ Koopman.predH (writeRef ((s ++ [readRef s m.Aref])
          ++ [readRef (s ++ [readRef s m.Aref]) m.Bref]) r v) m state ctrl
        = Koopman.predH s m state ctrl := by
    intro r hr
    have h1 := copy_frame_core s (readRef s m.Aref)
      (readRef (s ++ [readRef s m.Aref]) m.Bref) v r m.Aref hA hr
    have h2 := copy_frame_core s (readRef s m.Aref)
      (readRef (s ++ [readRef s m.Aref]) m.Bref) v r m.Bref hB hr
    refine ⟨h1, h2, ?_⟩
    unfold Koopman.predH
    rw [h1, h2]
  have hmem : ∀ r : ℕ, r ∈ [s.length, s.length + 1] → s.length ≤ r := by
    intro r hr
    rcases List.mem_cons.mp hr with h | h
    · omega
    · rcases List.mem_cons.mp h with h' | h'
      · omega
      · cases h'
  have e1 : (Koopman.to_linearH s m).2.1 = s.length := rfl
  have e2 : (Koopman.to_linearH s m).2.2 = s.length + 1 := by
    show (s ++ [readRef s m.Aref]).length = s.length + 1
    simp
  have e3 : (Koopman.get_parametersH s m).2.1 = s.length := rfl
  have e4 : (Koopman.get_parametersH s m).2.2 = s.length + 1 := by
    show (s ++ [readRef s m.Aref]).length = s.length + 1
    simp
  have e5 : (Koopman.pred_diffH s m state ctrl).2.2.1 = s.length := rfl
  have e6 : (Koopman.pred_diffH s m state ctrl).2.2.2 = s.length + 1 := by
    show (s ++ [readRef s m.Aref]).length = s.length + 1
    simp
  refine ⟨fun r hr => core r (hmem r ?_), fun r hr => core r (hmem r ?_),
          fun r hr => core r (hmem r ?_)⟩
  · rw [e1, e2] at hr; exact hr
  · rw [e3, e4] at hr; exact hr
  · rw [e5, e6] at hr; exact hr

/-- Concrete instantiation: a two-array heap, the model referencing both;
mutating the copy returned by `to_linear` does not change `A`. -/
theorem C9_returned_matrices_are_copies_witness :
    readRef
        (writeRef (Koopman.to_linearH [[[1]], [[2]]] ⟨0, 1⟩).1
          (Koopman.to_linearH [[[1]], [[2]]] ⟨0, 1⟩).2.1 [[7]])
        (0 : ℕ)
      = readRef [[[1]], [[2]]] 0 :=
  ((C9_returned_matrices_are_copies [[[1]], [[2]]] ⟨0, 1⟩ (by simp) (by simp)
      [[7]] [] []).1 _ (by simp)).1

/-! ## Claim about the SINDy parameter dictionary -/

/-- **C6** (refuted; the code has a bug): the claim says `get_parameters`
on a trained SINDy model returns the parameter dictionary without raising.
But `get_parameters` reads `self.A` and `self.B`, and no method of the
class ever assigns those attributes (`train` assigns only `model`,
`function_gradients` and `function_gradients2`), so the access raises
`AttributeError` on every trained model. -/
theorem C6_sindy_get_parameters_raises (method : String)
    (lasso_alpha_log10 : Option ℝ) (poly_basis : Bool) (poly_degree : ℕ)
    (trig_basis : Bool) (trig_freq : ℕ) (fit : List Traj → ℕ → ℕ → ℝ)
    (trajs : List Traj) :
    SINDy.get_parameters
        (SINDy.train
          (SINDy.init method lasso_alpha_log10 poly_basis poly_degree
            trig_basis trig_freq)
          fit trajs)
      = Except.error "AttributeError" :=
  rfl

/-! ## The SINDy Jacobian claim: derivative infrastructure

The stored gradient lambdas are the true scalar derivatives of the
library lambdas. -/

theorem LibFn1.hasDerivAt_eval (f : LibFn1) (x : ℝ) :
    HasDerivAt f.eval (f.grad x) x := by
  cases f with
  | ident =>
    simpa [LibFn1.eval, LibFn1.grad] using (hasDerivAt_id x)
  | sinF fr =>
    have h := ((hasDerivAt_id x).const_mul (fr : ℝ)).sin
    simp only [id_eq, mul_one] at h
    have : Real.cos (fr * x) * fr = (fr : ℝ) * Real.cos (fr * x) := by ring
    rw [this] at h
    exact h
  | cosF fr =>
    have h := ((hasDerivAt_id x).const_mul (fr : ℝ)).cos
    simp only [id_eq, mul_one] at h
    have : -Real.sin (fr * x) * fr = (fr : ℝ) * -Real.sin (fr * x) := by ring
    rw [this] at h
    exact h
  | powD d =>
    simpa [LibFn1.eval, LibFn1.grad] using (hasDerivAt_pow d x)

theorem LibFn2.hasDerivAt_fst (g : LibFn2) (x y : ℝ) :
    HasDerivAt (fun t => g.eval t y) (g.grad x y).1 x := by
  cases g with
  | xsiny =>
    simpa [LibFn2.eval, LibFn2.grad] using ((hasDerivAt_id x).mul_const (Real.sin y))
  | xcosy =>
    simpa [LibFn2.eval, LibFn2.grad] using ((hasDerivAt_id x).mul_const (Real.cos y))
  | ysinx =>
    have h := (Real.hasDerivAt_sin x).const_mul y
    simpa [LibFn2.eval, LibFn2.grad] using h
  | ycosx =>
    have h := (Real.hasDerivAt_cos x).const_mul y
    have e : y * -Real.sin x = -y * Real.sin x := by ring
    rw [e] at h
    exact h

theorem LibFn2.hasDerivAt_snd (g : LibFn2) (x y : ℝ) :
    HasDerivAt (fun t => g.eval x t) (g.grad x y).2 y := by
  cases g with
  | xsiny =>
    simpa [LibFn2.eval, LibFn2.grad] using ((Real.hasDerivAt_sin y).const_mul x)
  | xcosy =>
    have h := (Real.hasDerivAt_cos y).const_mul x
    have e : x * -Real.sin y = -x * Real.sin y := by ring
    rw [e] at h
    exact h
  | ysinx =>
    simpa [LibFn2.eval, LibFn2.grad] using ((hasDerivAt_id y).mul_const (Real.sin x))
  | ycosx =>
    simpa [LibFn2.eval, LibFn2.grad] using ((hasDerivAt_id y).mul_const (Real.cos x))

/-! Splitting `dotF` along list structure. -/

theorem dotF_append (c : ℕ → ℝ) (l₁ l₂ : List ℝ) :
    dotF c (l₁ ++ l₂) = dotF c l₁ + dotF (fun t => c (t + l₁.length)) l₂ := by
  induction l₁ generalizing c with
  | nil => simp [dotF]
  | cons x l₁ ih =>
    simp only [List.cons_append, dotF, List.length_cons, List.append_eq]
    rw [ih (fun t => c (t + 1))]
    have he : (fun t => c (t + l₁.length + 1)) = (fun t => c (t + (l₁.length + 1))) := by
      funext t
      rfl
    rw [he]
    ring

/-- Derivative of one single-argument block: only position `j` of the
mapped list depends on `s`. -/
theorem hasDerivAt_dotF_map_set (c : ℕ → ℝ) (φ φd : ℝ → ℝ)
    (hφ : ∀ x, HasDerivAt φ (φd x) x) (vars : List ℝ) (j : ℕ)
    (hj : j < vars.length) :
    HasDerivAt (fun s => dotF c ((vars.set j s).map φ))
      (c j * φd (vars.getD j 0)) (vars.getD j 0) := by
  induction vars generalizing j c with
  | nil => simp at hj
  | cons v vs ih =>
    cases j with
    | zero =>
      simp only [List.set_cons_zero, List.map_cons, dotF, List.getD_cons_zero]
      exact ((hφ v).const_mul (c 0)).add_const _
    | succ j =>
      simp only [List.set_cons_succ, List.map_cons, dotF, List.getD_cons_succ]
      exact ((ih (fun t => c (t + 1)) j (by simpa using hj)).const_add _)

/-- Length of the single-argument feature block. -/
theorem theta1_length (fs : List LibFn1) (l : List ℝ) :
    (fs.flatMap (fun f => l.map f.eval)).length = fs.length * l.length := by
  induction fs with
  | nil => simp
  | cons f fs ih =>
    simp [ih]
    ring

/-- Derivative of all single-argument blocks: the `function_gradients`
part of the Jacobian accumulation. -/
theorem hasDerivAt_dotF_flatMap1 (c : ℕ → ℝ) (fs : List LibFn1)
    (vars : List ℝ) (j : ℕ) (hj : j < vars.length) :
    HasDerivAt (fun s => dotF c (fs.flatMap (fun f => (vars.set j s).map f.eval)))
      (sjac1 c fs vars.length (vars.getD j 0) j) (vars.getD j 0) := by
  induction fs generalizing c with
  | nil =>
    simp only [List.flatMap_nil, dotF, sjac1]
    exact hasDerivAt_const _ 0
  | cons f fs ih =>
    have hes : ∀ s : ℝ,
        dotF c ((f :: fs).flatMap (fun f => (vars.set j s).map f.eval))
          = dotF c ((vars.set j s).map f.eval)
            + dotF (fun t => c (t + vars.length))
                (fs.flatMap (fun f => (vars.set j s).map f.eval)) := by
      intro s
      rw [List.flatMap_cons, dotF_append]
      congr 2
      simp
    have h1 := hasDerivAt_dotF_map_set c f.eval f.grad f.hasDerivAt_eval vars j hj
    have h2 := ih (fun t => c (t + vars.length))
    have := h1.add h2
    simp only [sjac1]
    refine HasDerivAt.congr_of_eventuallyEq this ?_
    filter_upwards with s
    exact hes s

/-! Auxiliary facts about `ordPairs` and `enumFrom` index bookkeeping. -/

theorem ordPairs_mem {α : Type} (l : List α) (pr : α × α) (h : pr ∈ ordPairs l) :
    pr.1 ∈ l ∧ pr.2 ∈ l := by
  induction l with
  | nil => simp [ordPairs] at h
  | cons x xs ih =>
    simp only [ordPairs, List.mem_append, List.mem_map] at h
    rcases h with ⟨y, hy, hpr⟩ | h
    · rw [← hpr]
      exact ⟨by simp, by simp [hy]⟩
    · have := ih h
      exact ⟨by simp [this.1], by simp [this.2]⟩

theorem ordPairs_length_set {α : Type} (l : List α) (j : ℕ) (a : α) :
    (ordPairs (l.set j a)).length = (ordPairs l).length := by
  induction l generalizing j with
  | nil => simp
  | cons x xs ih =>
    cases j with
    | zero => simp [ordPairs]
    | succ j => simp [ordPairs, ih j]

theorem sjac2blk_append (c : ℕ → ℝ) (g : LibFn2)
    (l₁ l₂ : List ((ℕ × ℝ) × (ℕ × ℝ))) (j : ℕ) :
    sjac2blk c g (l₁ ++ l₂) j
      = sjac2blk c g l₁ j + sjac2blk (fun t => c (t + l₁.length)) g l₂ j := by
  induction l₁ generalizing c with
  | nil => simp [sjac2blk]
  | cons pq l₁ ih =>
    simp only [List.cons_append, sjac2blk, List.length_cons, List.append_eq]
    rw [ih (fun t => c (t + 1))]
    have he : (fun t => c (t + l₁.length + 1)) = (fun t => c (t + (l₁.length + 1))) := by
      funext t
      rfl
    rw [he]
    ring

theorem sjac2blk_zero (c : ℕ → ℝ) (g : LibFn2)
    (prs : List ((ℕ × ℝ) × (ℕ × ℝ))) (j : ℕ)
    (h : ∀ pr ∈ prs, pr.1.1 ≠ j ∧ pr.2.1 ≠ j) :
    sjac2blk c g prs j = 0 := by
  induction prs generalizing c with
  | nil => simp [sjac2blk]
  | cons pq prs ih =>
    have h0 := h pq (by simp)
    simp only [sjac2blk, if_neg h0.1, if_neg h0.2]
    rw [ih (fun t => c (t + 1)) (fun pr hpr => h pr (by simp [hpr]))]
    ring

/-- A block of pairs whose first index is always the target `k` and whose
second index never is: its contribution is the dot with the first
components of the gradients. -/
theorem sjac2blk_fst_all (c : ℕ → ℝ) (g : LibFn2) (k : ℕ) (v : ℝ)
    (qs : List (ℕ × ℝ)) (h : ∀ q ∈ qs, q.1 ≠ k) :
    sjac2blk c g (qs.map (fun q => ((k, v), q))) k
      = dotF c (qs.map (fun q => (g.grad v q.2).1)) := by
  induction qs generalizing c with
  | nil => simp [sjac2blk, dotF]
  | cons q qs ih =>
    have hq := h q (by simp)
    simp only [List.map_cons, sjac2blk, dotF, if_pos rfl, if_neg hq, ite_true]
    rw [ih (fun t => c (t + 1)) (fun q' hq' => h q' (by simp [hq']))]
    ring

/-- A block of pairs whose first index `p` is below every pair index and
whose second components enumerate `vs` from `n`: only the pair whose
second index is `n + j` touches the target entry, with the second
gradient component. -/
theorem sjac2blk_snd_single (c : ℕ → ℝ) (g : LibFn2) (p : ℕ) (v : ℝ)
    (n : ℕ) (vs : List ℝ) (j : ℕ) (hp : p < n) (hj : j < vs.length) :
    sjac2blk c g ((List.enumFrom n vs).map (fun q => ((p, v), q))) (n + j)
      = c j * (g.grad v (vs.getD j 0)).2 := by
  induction vs generalizing n j c with
  | nil => simp at hj
  | cons y ys ih =>
    have hpne : p ≠ n + j := by omega
    cases j with
    | zero =>
      have hpn : p ≠ n := by omega
      simp only [List.enumFrom, List.map_cons, sjac2blk, if_neg hpn,
        Nat.add_zero, if_pos rfl, List.getD_cons_zero, ite_true]
      have hz : sjac2blk (fun t => c (t + 1)) g
          ((List.enumFrom (n + 1) ys).map (fun q => ((p, v), q))) n = 0 := by
        apply sjac2blk_zero
        intro pr hpr
        simp only [List.mem_map] at hpr
        rcases hpr with ⟨q, hq, hpr⟩
        have := List.le_fst_of_mem_enumFrom hq
        rw [← hpr]
        constructor
        · simp
          omega
        · simp
          omega
      rw [hz]
      ring
    | succ j =>
      have hnne : n ≠ n + (j + 1) := by omega
      simp only [List.enumFrom, List.map_cons, sjac2blk, if_neg hpne, if_neg hnne,
        List.getD_cons_succ]
      have harg : n + (j + 1) = (n + 1) + j := by omega
      rw [harg]
      rw [ih (fun t => c (t + 1)) (n + 1) j (by omega) (by simpa using hj)]
      ring

/-- Derivative of a block `[g(s, y) for y in ys]` with respect to `s`. -/
theorem hasDerivAt_dotF_map_left (c : ℕ → ℝ) (g : LibFn2) (x : ℝ)
    (ys : List ℝ) :
    HasDerivAt (fun s => dotF c (ys.map (fun y => g.eval s y)))
      (dotF c (ys.map (fun y => (g.grad x y).1))) x := by
  induction ys generalizing c with
  | nil =>
    simp only [List.map_nil, dotF]
    exact hasDerivAt_const _ 0
  | cons y ys ih =>
    simp only [List.map_cons, dotF]
    exact ((g.hasDerivAt_fst x y).const_mul (c 0)).add (ih (fun t => c (t + 1)))

theorem ordPairs_length_eq {α β : Type} (l₁ : List α) (l₂ : List β)
    (h : l₁.length = l₂.length) : (ordPairs l₁).length = (ordPairs l₂).length := by
  induction l₁ generalizing l₂ with
  | nil =>
    have : l₂ = [] := List.length_eq_zero.mp (by simpa using h.symm)
    subst this
    rfl
  | cons x xs ih =>
    cases l₂ with
    | nil => simp at h
    | cons y ys =>
      have h' : xs.length = ys.length := by simpa using h
      simp [ordPairs, ih ys h', h']

/-- Derivative of one `function_gradients2` block: the pairs of the
variable vector with position `j` replaced, against the indexed pairs in
`coeff_idx` order. -/
theorem hasDerivAt_dotF_pairs (c : ℕ → ℝ) (g : LibFn2) (vars : List ℝ)
    (k j : ℕ) (hj : j < vars.length) :
    HasDerivAt
      (fun s => dotF c ((ordPairs (vars.set j s)).map (fun p => g.eval p.1 p.2)))
      (sjac2blk c g (ordPairs (List.enumFrom k vars)) (k + j)) (vars.getD j 0) := by
  induction vars generalizing c k j with
  | nil => simp at hj
  | cons v vs ih =>
    have hsnd : (List.enumFrom (k + 1) vs).map (fun q => (g.grad v q.2).1)
        = vs.map (fun y => (g.grad v y).1) := by
      rw [show (fun q : ℕ × ℝ => (g.grad v q.2).1)
            = (fun y => (g.grad v y).1) ∘ Prod.snd from rfl]
      rw [← List.map_map]
      congr 1
      simp
    have hfstne : ∀ q ∈ List.enumFrom (k + 1) vs, q.1 ≠ k := by
      intro q hq
      have := List.le_fst_of_mem_enumFrom hq
      omega
    have hprsne : ∀ pr ∈ ordPairs (List.enumFrom (k + 1) vs),
        pr.1.1 ≠ k ∧ pr.2.1 ≠ k := by
      intro pr hpr
      have hm := ordPairs_mem _ pr hpr
      exact ⟨hfstne _ hm.1, hfstne _ hm.2⟩
    cases j with
    | zero =>
      have hfun : ∀ s : ℝ,
          dotF c ((ordPairs ((v :: vs).set 0 s)).map (fun p => g.eval p.1 p.2))
            = dotF c (vs.map (fun y => g.eval s y))
              + dotF (fun t => c (t + vs.length))
                  ((ordPairs vs).map (fun p => g.eval p.1 p.2)) := by
        intro s
        simp only [List.set_cons_zero, ordPairs, List.map_append, List.map_map]
        rw [dotF_append]
        simp only [List.length_map]
        rfl
      have hval : sjac2blk c g (ordPairs (List.enumFrom k (v :: vs))) (k + 0)
          = dotF c (vs.map (fun y => (g.grad v y).1)) := by
        show sjac2blk c g
            ((List.enumFrom (k + 1) vs).map (fun q => ((k, v), q))
              ++ ordPairs (List.enumFrom (k + 1) vs)) k = _
        rw [sjac2blk_append, sjac2blk_fst_all c g k v _ hfstne]
        rw [sjac2blk_zero _ g _ k hprsne, hsnd]
        ring
      rw [hval]
      have hd := (hasDerivAt_dotF_map_left c g v vs).add_const
        (dotF (fun t => c (t + vs.length))
          ((ordPairs vs).map (fun p => g.eval p.1 p.2)))
      simp only [List.getD_cons_zero]
      exact hd.congr_of_eventuallyEq (by filter_upwards with s; exact hfun s)
    | succ j =>
      have hj' : j < vs.length := by simpa using hj
      have hfun : ∀ s : ℝ,
          dotF c ((ordPairs ((v :: vs).set (j + 1) s)).map (fun p => g.eval p.1 p.2))
            = dotF c ((vs.set j s).map (fun y => g.eval v y))
              + dotF (fun t => c (t + vs.length))
                  ((ordPairs (vs.set j s)).map (fun p => g.eval p.1 p.2)) := by
        intro s
        simp only [List.set_cons_succ, ordPairs, List.map_append, List.map_map]
        rw [dotF_append]
        simp only [List.length_map, List.length_set]
        rfl
      have hval : sjac2blk c g (ordPairs (List.enumFrom k (v :: vs))) (k + (j + 1))
          = c j * (g.grad v (vs.getD j 0)).2
            + sjac2blk (fun t => c (t + vs.length)) g
                (ordPairs (List.enumFrom (k + 1) vs)) ((k + 1) + j) := by
        show sjac2blk c g
            ((List.enumFrom (k + 1) vs).map (fun q => ((k, v), q))
              ++ ordPairs (List.enumFrom (k + 1) vs)) (k + (j + 1)) = _
        rw [sjac2blk_append]
        have harg : k + (j + 1) = (k + 1) + j := by omega
        rw [harg, sjac2blk_snd_single c g k v (k + 1) vs j (by omega) hj']
        simp
      rw [hval]
      have h1 := hasDerivAt_dotF_map_set c (fun y => g.eval v y)
        (fun y => (g.grad v y).2) (fun y => g.hasDerivAt_snd v y) vs j hj'
      have h2 := ih (fun t => c (t + vs.length)) (k + 1) j hj'
      have hd := h1.add h2
      simp only [List.getD_cons_succ]
      exact hd.congr_of_eventuallyEq (by filter_upwards with s; exact hfun s)

/-- Derivative of all `function_gradients2` blocks. -/
theorem hasDerivAt_dotF_flatMap2 (c : ℕ → ℝ) (gs : List LibFn2)
    (vars : List ℝ) (j : ℕ) (hj : j < vars.length) :
    HasDerivAt
      (fun s => dotF c (gs.flatMap
        (fun g => (ordPairs (vars.set j s)).map (fun p => g.eval p.1 p.2))))
      (sjac2 c gs (ordPairs vars.enum) j) (vars.getD j 0) := by
  induction gs generalizing c with
  | nil =>
    simp only [List.flatMap_nil, dotF, sjac2]
    exact hasDerivAt_const _ 0
  | cons g gs ih =>
    have hlen : ∀ s : ℝ, ((ordPairs (vars.set j s)).map
        (fun p => g.eval p.1 p.2)).length = (ordPairs vars.enum).length := by
      intro s
      rw [List.length_map]
      exact ordPairs_length_eq _ _ (by simp)
    have hfun : ∀ s : ℝ,
        dotF c ((g :: gs).flatMap
            (fun g => (ordPairs (vars.set j s)).map (fun p => g.eval p.1 p.2)))
          = dotF c ((ordPairs (vars.set j s)).map (fun p => g.eval p.1 p.2))
            + dotF (fun t => c (t + (ordPairs vars.enum).length))
                (gs.flatMap
                  (fun g => (ordPairs (vars.set j s)).map (fun p => g.eval p.1 p.2))) := by
      intro s
      rw [List.flatMap_cons, dotF_append, hlen s]
    have h1 := hasDerivAt_dotF_pairs c g vars 0 j hj
    rw [Nat.zero_add] at h1
    have h2 := ih (fun t => c (t + (ordPairs vars.enum).length))
    have hd := h1.add h2
    simp only [sjac2]
    exact hd.congr_of_eventuallyEq (by filter_upwards with s; exact hfun s)

/-- Derivative of the full feature dot product with respect to variable
`j` of the concatenated variable vector: exactly the accumulated Jacobian
entry of `pred_diff`. -/
theorem hasDerivAt_dotF_theta (c : ℕ → ℝ) (fs1 : List LibFn1) (gs : List LibFn2)
    (vars : List ℝ) (j : ℕ) (hj : j < vars.length) :
    HasDerivAt (fun s => dotF c (SINDy.theta fs1 gs (vars.set j s)))
      (sjac1 c fs1 vars.length (vars.getD j 0) j
        + sjac2 (fun t => c (t + fs1.length * vars.length)) gs
            (ordPairs vars.enum) j)
      (vars.getD j 0) := by
  have hfun : ∀ s : ℝ, dotF c (SINDy.theta fs1 gs (vars.set j s))
      = dotF c (fs1.flatMap (fun f => (vars.set j s).map f.eval))
        + dotF (fun t => c (t + fs1.length * vars.length))
            (gs.flatMap
              (fun g => (ordPairs (vars.set j s)).map (fun p => g.eval p.1 p.2))) := by
    intro s
    unfold SINDy.theta
    rw [dotF_append, theta1_length, List.length_set]
  exact ((hasDerivAt_dotF_flatMap1 c fs1 vars j hj).add
      (hasDerivAt_dotF_flatMap2 (fun t => c (t + fs1.length * vars.length)) gs vars j hj)).congr_of_eventuallyEq
    (by filter_upwards with s; exact hfun s)

theorem set_append_add {α : Type} (l₁ l₂ : List α) (j : ℕ) (a : α) :
    (l₁ ++ l₂).set (l₁.length + j) a = l₁ ++ l₂.set j a := by
  rw [List.set_append_right _ _ (by omega)]
  simp

theorem getD_append_add {α : Type} (l₁ l₂ : List α) (j : ℕ) (d : α) :
    (l₁ ++ l₂).getD (l₁.length + j) d = l₂.getD j d := by
  rw [List.getD_append_right _ _ _ _ (by omega)]
  simp

/-- The heart of the Jacobian claim, for any function library: each entry
of `state_jac` / `ctrl_jac` as accumulated by `pred_diff` is the
derivative of the prediction in the corresponding coordinate. -/
theorem sindy_jac_core (coeff : ℕ → ℕ → ℝ) (fs1 : List LibFn1)
    (gs : List LibFn2) (state ctrl : List ℝ) (i : ℕ) :
    (∀ j, j < state.length →
        HasDerivAt (fun s => SINDy.predict coeff fs1 gs (state.set j s) ctrl i)
          (SINDy.state_jac coeff fs1 gs state ctrl i j) (state.getD j 0))
    ∧ (∀ j, j < ctrl.length →
        HasDerivAt (fun s => SINDy.predict coeff fs1 gs state (ctrl.set j s) i)
          (SINDy.ctrl_jac coeff fs1 gs state ctrl i j) (ctrl.getD j 0)) := by
  constructor
  · intro j hjs
    have hj : j < (state ++ ctrl).length := by
      rw [List.length_append]
      omega
    have h := hasDerivAt_dotF_theta (coeff i) fs1 gs (state ++ ctrl) j hj
    have hget : (state ++ ctrl).getD j 0 = state.getD j 0 :=
      List.getD_append _ _ _ _ hjs
    rw [hget] at h
    have hfun : ∀ s : ℝ,
        SINDy.predict coeff fs1 gs (state.set j s) ctrl i
          = dotF (coeff i) (SINDy.theta fs1 gs ((state ++ ctrl).set j s)) := by
      intro s
      unfold SINDy.predict
      rw [List.set_append_left _ _ hjs]
    have heq : Filter.EventuallyEq (nhds (state.getD j 0))
        (fun s => SINDy.predict coeff fs1 gs (state.set j s) ctrl i)
        (fun s => dotF (coeff i) (SINDy.theta fs1 gs ((state ++ ctrl).set j s))) := by
      filter_upwards with s
      exact hfun s
    have h2 := h.congr_of_eventuallyEq heq
    convert h2 using 1
    unfold SINDy.state_jac SINDy.var_jac
    simp only [hget]
  · intro j hjc
    have hj : state.length + j < (state ++ ctrl).length := by
      rw [List.length_append]
      omega
    have h := hasDerivAt_dotF_theta (coeff i) fs1 gs (state ++ ctrl)
      (state.length + j) hj
    have hget : (state ++ ctrl).getD (state.length + j) 0 = ctrl.getD j 0 :=
      getD_append_add _ _ _ _
    rw [hget] at h
    have hfun : ∀ s : ℝ,
        SINDy.predict coeff fs1 gs state (ctrl.set j s) i
          = dotF (coeff i)
              (SINDy.theta fs1 gs ((state ++ ctrl).set (state.length + j) s)) := by
      intro s
      unfold SINDy.predict
      rw [set_append_add]
    have heq : Filter.EventuallyEq (nhds (ctrl.getD j 0))
        (fun s => SINDy.predict coeff fs1 gs state (ctrl.set j s) i)
        (fun s => dotF (coeff i)
          (SINDy.theta fs1 gs ((state ++ ctrl).set (state.length + j) s))) := by
      filter_upwards with s
      exact hfun s
    have h2 := h.congr_of_eventuallyEq heq
    convert h2 using 1
    unfold SINDy.ctrl_jac SINDy.var_jac
    simp only [hget]

/-- **C4** (holds): on a trained SINDy model, `pred_diff` returns the very
prediction `pred` returns, and the Jacobian matrices it assembles from the
stored gradient lists and the coefficient matrix (walking the library's
coefficient order) have as entries the analytic partial derivatives of the
prediction with respect to each state and control coordinate. -/
theorem C4_sindy_pred_diff_chain_rule (trig_basis : Bool) (trig_freq : ℕ)
    (poly_basis : Bool) (poly_degree : ℕ) (coeff : ℕ → ℕ → ℝ)
    (state ctrl : List ℝ) (i : ℕ) :
    (SINDy.pred_diff coeff
        (SINDy.library_functions trig_basis trig_freq poly_basis poly_degree)
        SINDy.library_functions2 state ctrl).1 i
      = SINDy.pred coeff
          (SINDy.library_functions trig_basis trig_freq poly_basis poly_degree)
          SINDy.library_functions2 state ctrl i
    ∧ (∀ j, j < state.length →
        HasDerivAt
          (fun s => SINDy.predict coeff
            (SINDy.library_functions trig_basis trig_freq poly_basis poly_degree)
            SINDy.library_functions2 (state.set j s) ctrl i)
          (SINDy.state_jac coeff
            (SINDy.library_functions trig_basis trig_freq poly_basis poly_degree)
            SINDy.library_functions2 state ctrl i j)
          (state.getD j 0))
    ∧ (∀ j, j < ctrl.length →
        HasDerivAt
          (fun s => SINDy.predict coeff
            (SINDy.library_functions trig_basis trig_freq poly_basis poly_degree)
            SINDy.library_functions2 state (ctrl.set j s) i)
          (SINDy.ctrl_jac coeff
            (SINDy.library_functions trig_basis trig_freq poly_basis poly_degree)
            SINDy.library_functions2 state ctrl i j)
          (ctrl.getD j 0)) := by
  refine ⟨rfl, ?_, ?_⟩
  · exact (sindy_jac_core coeff _ _ state ctrl i).1
  · exact (sindy_jac_core coeff _ _ state ctrl i).2

/-- Concrete instantiation: a one-dimensional state and control, library
with trig frequency 1 and polynomial degree 2, all coefficients 1; the
state Jacobian entry is the derivative of the prediction in the state
coordinate at `state = [1]`, `ctrl = [2]`. -/
theorem C4_sindy_pred_diff_chain_rule_witness :
    (0 : ℕ) < ([ (1 : ℝ) ] : List ℝ).length
    ∧ HasDerivAt
        (fun s => SINDy.predict (fun _ _ => (1 : ℝ))
          (SINDy.library_functions true 1 true 2)
          SINDy.library_functions2 (([ (1 : ℝ) ] : List ℝ).set 0 s) [(2 : ℝ)] 0)
        (SINDy.state_jac (fun _ _ => (1 : ℝ))
          (SINDy.library_functions true 1 true 2)
          SINDy.library_functions2 [(1 : ℝ)] [(2 : ℝ)] 0 0)
        (([ (1 : ℝ) ] : List ℝ).getD 0 0) :=
  ⟨by simp,
   (C4_sindy_pred_diff_chain_rule true 1 true 2 (fun _ _ => (1 : ℝ))
      [(1 : ℝ)] [(2 : ℝ)] 0).2.1 0 (by simp)⟩

end AutoMPC
